import Mathlib

/-!
Verification of the ecommerce-ai-assistant backend core logic.

Shallow embedding of:
 - backend/services/price.py        (format_price)
 - backend/services/gemini_chain.py (_format_price/_price_from_md/_hit_to_row,
                                     _LISTY, _extract_brand_hint, _get_context,
                                     generate_response)
 - backend/routes/products.py       (get_products)

Python strings are modelled as lists of characters with ASCII semantics
(the repository's data and queries are ASCII; Python's `str.isdigit`,
`str.strip`, `str.lower`, `str.title` and the `re` word classes coincide
with the ASCII definitions used here on that domain).

Python floats are modelled exactly: a binary64 value is represented by the
rational number it denotes, `int -> float` conversion and float division
round to nearest / ties to even at 53 bits of precision (with the IEEE-754
overflow condition: the correctly rounded value reaching 2^1024 raises
OverflowError for int conversion), and `"{:,.2f}"` formatting rounds the
exact value of the double to two decimal digits, ties to even, inserting
thousands separators.  External collaborators (vector index, generation
model, database) are passed in as explicit parameters, exceptions as
`Except`.
-/

set_option autoImplicit false
set_option maxRecDepth 4000

/-! ## ASCII string model -/

abbrev Str := List Char

def strL (s : String) : Str := s.toList

def isSpaceA (c : Char) : Bool :=
  c = ' ' || c = '\t' || c = '\n' || c = '\x0d' || c = '\x0b' || c = '\x0c'

def isUpperA (c : Char) : Bool := 'A' ≤ c && c ≤ 'Z'

def isLowerA (c : Char) : Bool := 'a' ≤ c && c ≤ 'z'

def isAlphaA (c : Char) : Bool := isUpperA c || isLowerA c

/-- Word character of the `re` module's `\b` and `\w` (ASCII). -/
def isWordChar (c : Char) : Bool := isAlphaA c || c.isDigit || c = '_'

def lowerC (c : Char) : Char := if isUpperA c then Char.ofNat (c.toNat + 32) else c

def upperC (c : Char) : Char := if isLowerA c then Char.ofNat (c.toNat - 32) else c

/-- Python `str.lower()` (ASCII). -/
def lowerS (s : Str) : Str := s.map lowerC

/-- Python `str.strip()` (ASCII whitespace). -/
def pyStrip (s : Str) : Str :=
  ((s.dropWhile isSpaceA).reverse.dropWhile isSpaceA).reverse

/-- Python `str.title()` (ASCII): a letter is uppercased iff the previous
character is not a letter, otherwise lowercased. -/
def titleGo : Bool → Str → Str
  | _, [] => []
  | prevAlpha, c :: r =>
      (if isAlphaA c then (if prevAlpha then lowerC c else upperC c) else c)
        :: titleGo (isAlphaA c) r

def pyTitle (s : Str) : Str := titleGo false s

/-- Does `pre` start `s`? -/
def startsWL : Str → Str → Bool
  | [], _ => true
  | _ :: _, [] => false
  | a :: as, b :: bs => a = b && startsWL as bs

/-- Python `needle in haystack` substring test. -/
def hasSub (n : Str) : Str → Bool
  | [] => n.isEmpty
  | c :: t => startsWL n (c :: t) || hasSub n t

/-- Python `"\n".join(lines)`. -/
def joinNL : List Str → Str
  | [] => []
  | [a] => a
  | a :: b :: rest => a ++ '\n' :: joinNL (b :: rest)

/-- Word tokens of a text: the maximal runs of `\w` characters.  `cur` is the
reversed partial token read so far. -/
def tokensGo (cur : Str) : Str → List Str
  | [] => if cur.isEmpty then [] else [cur.reverse]
  | c :: rest =>
      if isWordChar c then tokensGo (c :: cur) rest
      else (if cur.isEmpty then [] else [cur.reverse]) ++ tokensGo [] rest

def wordTokens (s : Str) : List Str := tokensGo [] s

/-! ## Exact binary64 model -/

/-- Round half to even, on rationals. -/
def rne (q : ℚ) : ℤ :=
  if q - ⌊q⌋ < 1/2 then ⌊q⌋
  else if 1/2 < q - ⌊q⌋ then ⌊q⌋ + 1
  else if 2 ∣ ⌊q⌋ then ⌊q⌋ else ⌊q⌋ + 1

/-- Fueled base-2 logarithm (the fuel is only peeled once per halving, so
`log2F n n` always terminates after `log2 n` steps). -/
def log2F : ℕ → ℕ → ℕ
  | 0, _ => 0
  | f + 1, n => if n ≤ 1 then 0 else log2F f (n / 2) + 1

def nlog2 (n : ℕ) : ℕ := log2F n n

/-- The exponent `e` with `2^(e-1) ≤ q < 2^e`, for `q > 0`. -/
def elogQ (q : ℚ) : ℤ :=
  (nlog2 (Int.toNat ⌊q * 2 ^ (nlog2 q.den + 1)⌋) : ℤ) + 1 - (nlog2 q.den + 1)

/-- Round a positive rational to the nearest binary64 value (unbounded
exponent above, subnormal granularity 2^-1074 below; the caller checks the
overflow threshold 2^1024). -/
def posND (q : ℚ) : ℚ :=
  (rne (q * 2 ^ (-max (elogQ q - 53) (-1074))) : ℚ) * 2 ^ max (elogQ q - 53) (-1074)

def nearestDoubleQ (q : ℚ) : ℚ :=
  if q = 0 then 0 else if q < 0 then -posND (-q) else posND q

inductive PyFloat where
  | finite (val : ℚ)
  | inf
deriving DecidableEq

/-- The IEEE-754 binary64 overflow threshold `2 ^ 1024`, written as
`(2 ^ 32) ^ 32` so that it evaluates by shallow recursion. -/
def twoPow1024 : ℕ := (2 ^ 32) ^ 32

/-- Python `float(numeral_string)`: correctly rounded, overflowing to `inf`. -/
def pyFloatOfRat (q : ℚ) : PyFloat :=
  if (twoPow1024 : ℚ) ≤ |nearestDoubleQ q| then .inf else .finite (nearestDoubleQ q)

/-- Python `float(int)`: correctly rounded; raises OverflowError when the
rounded value reaches 2^1024. -/
def pyIntToFloat (n : ℤ) : Except Unit ℚ :=
  if (twoPow1024 : ℚ) ≤ |nearestDoubleQ (n : ℚ)| then .error ()
  else .ok (nearestDoubleQ (n : ℚ))

/-- Binary64 division by 100 (exact quotient, then one rounding; the result
shrinks, so it can neither overflow nor leave the subnormal range in the
uses below). -/
def pyDivFloat100 (d : ℚ) : ℚ := nearestDoubleQ (d / 100)

/-! ## Decimal rendering, Python `f"{x:,.2f}"` -/

def digitChar (d : ℕ) : Char := Char.ofNat (48 + d)

/-- Little-endian decimal digits (fuel is peeled once per digit). -/
def natDigitsLE : ℕ → ℕ → List ℕ
  | 0, _ => []
  | _ + 1, 0 => []
  | f + 1, n => (n % 10) :: natDigitsLE f (n / 10)

def chunk3 : List Char → List (List Char)
  | [] => []
  | [a] => [[a]]
  | [a, b] => [[a, b]]
  | a :: b :: c :: r => [a, b, c] :: chunk3 r

/-- Decimal numeral of `n` with thousands separators. -/
def commaSepNat (n : ℕ) : Str :=
  if n = 0 then ['0']
  else (List.intercalate [','] (chunk3 ((natDigitsLE (n + 1) n).map digitChar))).reverse

def twoDigits (r : ℕ) : Str := [digitChar (r / 10), digitChar (r % 10)]

/-- Python `f"{d:,.2f}"` on a finite double with exact value `d`: round the
exact value to a count of cents, half to even, and render. -/
def fmt2f (d : ℚ) : Str :=
  (if d < 0 then ['-'] else []) ++ commaSepNat ((rne (|d| * 100)).toNat / 100)
    ++ '.' :: twoDigits ((rne (|d| * 100)).toNat % 100)

/-! ## backend/services/price.py -/

/-- A Python value as far as `format_price` can observe it. -/
inductive PyVal where
  | none
  | str (s : Str)
  | int (n : ℤ)
  | float (f : PyFloat)
  | dict
  | list
  | obj
deriving DecidableEq

/-- Python `value.replace(".", "", 1)`. -/
def removeFirstDot : Str → Str
  | [] => []
  | '.' :: rest => rest
  | c :: rest => c :: removeFirstDot rest

/-- Python `s.isdigit()` (ASCII): nonempty and all decimal digits. -/
def pyIsDigit (s : Str) : Bool := !s.isEmpty && s.all Char.isDigit

/-- The numeric-string test of `format_price`:
`value.strip().replace(".", "", 1).isdigit()`. -/
def pyNumeralCheck (s : Str) : Bool := pyIsDigit (removeFirstDot (pyStrip s))

def digitsVal (s : Str) : ℕ := s.foldl (fun a c => 10 * a + (c.toNat - 48)) 0

/-- Python `int(s)` on a whitespace-padded digit string. -/
def pyIntOfStr (s : Str) : ℤ := (digitsVal (pyStrip s) : ℤ)

/-- Exact decimal value of a digit string with at most one dot. -/
def decimalValQ (s : Str) : ℚ :=
  let t := pyStrip s
  let ip := t.takeWhile (fun c => c != '.')
  let fp := (t.dropWhile (fun c => c != '.')).drop 1
  ((digitsVal ip : ℚ) * 10 ^ fp.length + (digitsVal fp : ℚ)) / 10 ^ fp.length

/-- Python `float(s)` on a numeral string. -/
def pyFloatOfStr (s : Str) : PyFloat := pyFloatOfRat (decimalValQ s)

/-- The conversion step of `format_price`:
`value = float(value) if "." in value else int(value)`. -/
def numConvert (s : Str) : PyVal :=
  if s.contains '.' then .float (pyFloatOfStr s) else .int (pyIntOfStr s)

/-- The numeric tail of `format_price`'s `try` block: `isinstance` dispatch
on int (cents, via float division by 100) and float (already dollars); every
other type falls through to `return None`.  An `.error` is a raised
OverflowError. -/
def format_priceNum (v : PyVal) (currency : Str) : Except Unit (Option Str) :=
  match v with
  | .int n =>
      match pyIntToFloat n with
      | .error u => .error u
      | .ok d => .ok (some (currency ++ fmt2f (pyDivFloat100 d)))
  | .float .inf => .ok (some (currency ++ strL "inf"))
  | .float (.finite d) => .ok (some (currency ++ fmt2f d))
  | _ => .ok Option.none

/-- The whole `try` block of `format_price` (string branch first, then the
numeric branches).  `gemini_chain._format_price` is the same function up to
converting the pre-stripped string, which yields the same value. -/
def format_priceTry (v : PyVal) (currency : Str) : Except Unit (Option Str) :=
  match v with
  | .str s =>
      if pyNumeralCheck s then format_priceNum (numConvert s) currency
      else .ok Option.none
  | w => format_priceNum w currency

/-- `backend.services.price.format_price`: `None` short-circuits before the
`try`; `except Exception: return None` absorbs every raised error. -/
def format_price (v : PyVal) (currency : Str) : Option Str :=
  match v with
  | .none => Option.none
  | w =>
      match format_priceTry w currency with
      | .ok o => o
      | .error _ => Option.none

/-- Modelled from the spec of Task B section 8 and claim C3: the expected
rendering of an integer count of cents, `{symbol}{n/100:,.2f}` computed
exactly. -/
def renderCents (n : ℕ) : Str := commaSepNat (n / 100) ++ '.' :: twoDigits (n % 100)

def specPriceInt (currency : Str) (n : ℕ) : Str := currency ++ renderCents n

/-! ## backend/services/gemini_chain.py : rows -/

/-- The metadata keys `_hit_to_row`/`_price_from_md` read.  A dict that is
empty (or has none of these keys and is falsy for the code's purposes) is
`Option.none` at the `Hit` level. -/
structure Md where
  name : Option Str
  ProductName : Option Str
  brand : Option Str
  ProductBrand : Option Str
  gender : Option Str
  Gender : Option Str
  primaryColor : Option Str
  PrimaryColor : Option Str
  price : PyVal
  price_display : Option Str
  description : Option Str
deriving DecidableEq

structure Hit where
  metadata : Option Md
  page_content : Option Str
deriving DecidableEq

structure CtxRow where
  name : Str
  brand : Str
  gender : Str
  color : Str
  price : Str
  description : Str
deriving DecidableEq

/-- Python truthiness of an optional string: `None` and `""` are falsy. -/
def truthyStr (o : Option Str) : Bool :=
  match o with
  | some s => !s.isEmpty
  | Option.none => false

/-- Python `a or b or default` over optional strings. -/
def orKey (a b : Option Str) (dflt : Str) : Str :=
  if truthyStr a then a.getD []
  else if truthyStr b then b.getD []
  else dflt

/-- `gemini_chain._price_from_md`. -/
def _price_from_md (md : Option Md) : Str :=
  match md with
  | Option.none => strL "N/A"
  | some m =>
      if truthyStr m.price_display then m.price_display.getD []
      else
        match format_price m.price (strL "$") with
        | some p => if p.isEmpty then strL "N/A" else p
        | Option.none => strL "N/A"

def mdGet (md : Option Md) (f : Md → Option Str) : Option Str :=
  match md with
  | some m => f m
  | Option.none => Option.none

/-- `gemini_chain._hit_to_row`. -/
def _hit_to_row (h : Hit) : CtxRow :=
  let md := h.metadata
  { name := orKey (mdGet md (·.name)) (mdGet md (·.ProductName)) (strL "N/A")
    brand := orKey (mdGet md (·.brand)) (mdGet md (·.ProductBrand)) (strL "N/A")
    gender := orKey (mdGet md (·.gender)) (mdGet md (·.Gender)) (strL "N/A")
    color := orKey (mdGet md (·.primaryColor)) (mdGet md (·.PrimaryColor)) (strL "N/A")
    price := _price_from_md md
    description :=
      if truthyStr h.page_content then h.page_content.getD []
      else if truthyStr (mdGet md (·.description)) then (mdGet md (·.description)).getD []
      else [] }

/-! ## gemini_chain.py : query heuristics

`_LISTY = re.compile(r"\b(all|list|others?\|more|everything)\b", re.I)` (the
alternation written here with an escaped bar; the real pattern has a plain
bar).  Because every alternative is a run of letters, a match at a position
requires the previous character to be a non-word character (or the start)
and the characters after the matched word to not continue a word.  The
scanner below walks the text once, tracking exactly that boundary bit. -/

def listyWords : List Str :=
  [strL "all", strL "list", strL "other", strL "others", strL "more", strL "everything"]

/-- Strip `w` from the head of `s`, comparing case-insensitively (`re.I`);
`w` is stored lowercase. -/
def stripCIPre : Str → Str → Option Str
  | [], s => some s
  | _ :: _, [] => Option.none
  | a :: as, c :: cs => if lowerC c = a then stripCIPre as cs else Option.none

/-- The position after a match must not continue a word (`\b`). -/
def boundaryOK : Str → Bool
  | [] => true
  | c :: _ => !isWordChar c

/-- Does the whole word `w` sit at the head of `s`? -/
def ciWordAt (w s : Str) : Bool :=
  match stripCIPre w s with
  | some r => boundaryOK r
  | Option.none => false

def headMatchesListy (s : Str) : Bool := listyWords.any (fun w => ciWordAt w s)

/-- `_LISTY.search(text) is not None`: scan every position; the Boolean
argument says whether a word may begin here (the previous character was not
a word character). -/
def listySearch : Bool → Str → Bool
  | _, [] => false
  | atB, c :: rest => (atB && headMatchesListy (c :: rest)) || listySearch (!isWordChar c) rest

/-- `want_all = bool(_LISTY.search(query))`. -/
def wantAll (query : Str) : Bool := listySearch true query

/-! ## gemini_chain.py : brand extraction

`re.findall(r"\b([A-Z][a-z]+(?:\s+[A-Z][a-z]+)*)\b", text)`.  At a position
where a word may begin, the engine greedily reads `[A-Z][a-z]+` words
separated by whitespace; shrinking a trailing `[a-z]+` can never satisfy the
final `\b` (a lowercase letter would follow), so backtracking either keeps
the full chain (when the character after it does not continue a word) or
drops the last `(?:\s+[A-Z][a-z]+)` group (whose separator then witnesses
the boundary), or fails when only one word was read.  Scanning resumes at
the end of the match. -/

/-- One `[A-Z][a-z]+` word at the head of `s`. -/
def parseWord : Str → Option (Str × Str)
  | [] => Option.none
  | c :: rest =>
      if isUpperA c then
        let ls := rest.takeWhile isLowerA
        if ls.isEmpty then Option.none else some (c :: ls, rest.dropWhile isLowerA)
      else Option.none

/-- The greedy `(?:\s+[A-Z][a-z]+)*` chain: the list of matched
`separator ++ word` pieces and the rest of the text.  Fuel is peeled once
per piece, so `r.length` fuel is always enough. -/
def chainPF : ℕ → Str → List Str × Str
  | 0, r => ([], r)
  | f + 1, r =>
      let sp := r.takeWhile isSpaceA
      if sp.isEmpty then ([], r)
      else
        match parseWord (r.dropWhile isSpaceA) with
        | some (w, r2) =>
            let pr := chainPF f r2
            ((sp ++ w) :: pr.1, pr.2)
        | Option.none => ([], r)

/-- The regex match attempt at the head of `s`: the captured candidate and
the position where scanning resumes. -/
def matchBrandAt (s : Str) : Option (Str × Str) :=
  match parseWord s with
  | Option.none => Option.none
  | some (w0, r0) =>
      let pr := chainPF r0.length r0
      if boundaryOK pr.2 then some (w0 ++ pr.1.flatten, pr.2)
      else
        match pr.1 with
        | [] => Option.none
        | q :: qs => some (w0 ++ ((q :: qs).dropLast).flatten, (q :: qs).getLast (by simp) ++ pr.2)

/-- The scanning loop of `findall`; every step shortens the text, so
`length + 1` fuel is always enough. -/
def scanBrandsF : ℕ → Bool → Str → List Str
  | 0, _, _ => []
  | _ + 1, _, [] => []
  | f + 1, atB, c :: rest =>
      match (if atB then matchBrandAt (c :: rest) else Option.none) with
      | some (cand, resume) => cand :: scanBrandsF f false resume
      | Option.none => scanBrandsF f (!isWordChar c) rest

/-- `re.findall(r"\b([A-Z][a-z]+(?:\s+[A-Z][a-z]+)*)\b", text)`. -/
def findCandidates (text : Str) : List Str := scanBrandsF (text.length + 1) true text

/-- Python `max(candidates, key=len)`: the first candidate of maximal length. -/
def pyMaxByLen (c : Str) (cs : List Str) : Str :=
  cs.foldl (fun acc x => if acc.length < x.length then x else acc) c

def knownBrands : List Str :=
  [strL "nike", strL "vans", strL "adidas", strL "converse", strL "new balance",
   strL "on running"]

/-- The lowercase-keyword fallback loop of `_extract_brand_hint`. -/
def fallbackBrand (text : Str) : Option Str :=
  (knownBrands.find? (fun w => hasSub w (lowerS text))).map pyTitle

/-- `gemini_chain._extract_brand_hint`. -/
def _extract_brand_hint (text : Str) : Option Str :=
  match findCandidates text with
  | [] => fallbackBrand text
  | c :: cs => some (pyMaxByLen c cs)

/-! ## gemini_chain.py : context building -/

abbrev RKey := Str × Str

def rowKey (r : CtxRow) : RKey := (lowerS r.brand, lowerS r.name)

/-- The dedup loop of `_get_context` (`seen` set, first occurrence kept). -/
def dedupGo (seen : List RKey) : List CtxRow → List CtxRow
  | [] => []
  | r :: rs =>
      if rowKey r ∈ seen then dedupGo seen rs
      else r :: dedupGo (rowKey r :: seen) rs

def dedupRows (rows : List CtxRow) : List CtxRow := dedupGo [] rows

/-- `[r for r in rows if r["brand"].lower() == brand_hint.lower()] or rows`. -/
def brandFilter (hint : Str) (rows : List CtxRow) : List CtxRow :=
  if (rows.filter (fun r => lowerS r.brand == lowerS hint)).isEmpty then rows
  else rows.filter (fun r => lowerS r.brand == lowerS hint)

/-- `if brand_hint:` — `None` and the empty string skip the filter. -/
def rowsAfterHint (hint : Option Str) (rows : List CtxRow) : List CtxRow :=
  match hint with
  | some h => if h.isEmpty then rows else brandFilter h rows
  | Option.none => rows

/-- Dedup then truncate:
`max_items = len(unique) if want_all else min(3, len(unique))`. -/
def itemsOf (query : Str) (rows : List CtxRow) : List CtxRow :=
  (dedupRows rows).take
    (if wantAll query then (dedupRows rows).length else min 3 (dedupRows rows).length)

def itemLine (r : CtxRow) : Str :=
  strL "- " ++ r.brand ++ strL " " ++ r.name ++ strL " (" ++ r.color ++ strL ", "
    ++ r.gender ++ strL "), Price: " ++ r.price ++ strL "\n  " ++ r.description

def summaryLine (r : CtxRow) : Str :=
  r.brand ++ strL " | " ++ r.name ++ strL " | " ++ r.color ++ strL " | "
    ++ r.gender ++ strL " | " ++ r.price

def noCtx : Str := strL "No relevant context found."

def renderContext (items : List CtxRow) : Str :=
  joinNL ((strL "Items:" :: items.map itemLine)
    ++ (strL "\nSummary:" :: items.map summaryLine))

/-- `gemini_chain._get_context`, with the `vectorstore.similarity_search`
call passed in: `.error` is a raised exception (caught), `.ok hits` its
result. -/
def _get_context (query : Str) (searchResult : Except Unit (List Hit)) : Str :=
  match searchResult with
  | .error _ => noCtx
  | .ok hits =>
      if hits.isEmpty then noCtx
      else
        renderContext
          (itemsOf query (rowsAfterHint (_extract_brand_hint query) (hits.map _hit_to_row)))

/-! ## gemini_chain.py : generate_response -/

def SYSTEM_MESSAGE : Str :=
  strL "You are a helpful shop assistant. Answer only about the shop's product catalog. "
    ++ strL "When you list products, use the items given in Context. "
    ++ strL "If the question asks for 'all' or 'others', enumerate all items found in Context, "
    ++ strL "one per line. If you don't know, say: 'I can only help with product-related queries.' "
    ++ strL "Use the 'Price' exactly as shown in Context (do not invent or reformat)."

def promptOf (query : Str) (history : List Str) (context : Str) : Str :=
  joinNL ([SYSTEM_MESSAGE, [], strL "Conversation:"]
    ++ history
    ++ [strL "User: " ++ query, [], strL "Context:", context, [], strL "Assistant:"])

/-- `gemini_chain.generate_response`.  `apiKey` is `os.getenv("GOOGLE_API_KEY")`
(`.error` is the raised RuntimeError when it is missing or empty), `genText`
the external model: its `.text` for a given prompt (`None` when the provider
returns no text, then `or ""` applies). -/
def generate_response (apiKey : Option Str) (genText : Str → Option Str)
    (query : Str) (history : List Str) (searchResult : Except Unit (List Hit)) :
    Except Unit (Str × List Str) :=
  match apiKey with
  | Option.none => .error ()
  | some k =>
      if k.isEmpty then .error ()
      else
        let context := _get_context query searchResult
        let prompt := promptOf query history context
        let respText := (genText prompt).getD []
        let clean := pyStrip respText
        .ok (clean, history ++ [strL "User: " ++ query, strL "Assistant: " ++ clean])

/-! ## backend/routes/products.py -/

/-- A row of `prisma.product.find_many()` after `model_dump()`: the raw
`price` field and the rest of the record, opaque here. -/
structure ProductRow where
  price : PyVal
  rest : Str
deriving DecidableEq

structure ProductOut where
  row : ProductRow
  price_display : Option Str
deriving DecidableEq

structure HTTPErr where
  status : ℕ
  detail : Str
deriving DecidableEq

/-- `products.get_products`, with the store fetch passed in (`.error e` is a
raised exception whose `str` is `e`). -/
def get_products (fetch : Except Str (List ProductRow)) :
    Except HTTPErr (List ProductOut) :=
  match fetch with
  | .ok rows =>
      .ok (rows.map (fun r => { row := r, price_display := format_price r.price (strL "$") }))
  | .error e => .error { status := 500, detail := strL "DB error: " ++ e }

/-! ## Concrete fixtures used by the witness theorems -/

def wRow1 : CtxRow :=
  ⟨strL "Era", strL "Vans", strL "Men", strL "Black", strL "$54.99", strL "Classic"⟩

def wRow2 : CtxRow :=
  ⟨strL "Air Max", strL "Nike", strL "Men", strL "White", strL "$129.99", strL "Runner"⟩

def wRow3 : CtxRow :=
  ⟨strL "Era", strL "Vans", strL "Men", strL "Black", strL "$54.99", strL "dup"⟩

def wMd : Md :=
  ⟨some (strL "Era"), Option.none, some (strL "Vans"), Option.none, some (strL "Men"),
   Option.none, some (strL "Black"), Option.none, .int 5499, Option.none, Option.none⟩

def wHit : Hit := ⟨some wMd, some (strL "Classic low top")⟩

def wProdRow : ProductRow := ⟨.int 129900, strL "id=1"⟩

def wProdRowN : ProductRow := ⟨.none, strL "id=2"⟩

/-! ## Helper lemmas -/

theorem take_min_three (l : List CtxRow) : l.take (min 3 l.length) = l.take 3 := by
  rw [← List.take_take, List.take_length]

theorem isEmpty_false_of_ne_nil {α : Type} {l : List α} (h : l ≠ []) :
    l.isEmpty = false := by
  cases l with
  | nil => exact absurd rfl h
  | cons a as => rfl

theorem brandFilter_ne_nil (hint : Str) {rows : List CtxRow} (h : rows ≠ []) :
    brandFilter hint rows ≠ [] := by
  unfold brandFilter
  by_cases hf : (rows.filter (fun r => lowerS r.brand == lowerS hint)).isEmpty = true
  · rw [if_pos hf]
    exact h
  · rw [if_neg hf]
    intro he
    rw [he] at hf
    exact hf rfl

theorem rowsAfterHint_ne_nil (hint : Option Str) {rows : List CtxRow} (h : rows ≠ []) :
    rowsAfterHint hint rows ≠ [] := by
  cases hint with
  | none => exact h
  | some s =>
    show (if s.isEmpty = true then rows else brandFilter s rows) ≠ []
    by_cases hs : s.isEmpty = true
    · rw [if_pos hs]
      exact h
    · rw [if_neg hs]
      exact brandFilter_ne_nil s h

theorem c2_helper_filter_ne_nil {hint : Str} {rows : List CtxRow}
    (h : ∃ r ∈ rows, lowerS r.brand = lowerS hint) :
    (rows.filter (fun r => lowerS r.brand == lowerS hint)).isEmpty = false := by
  obtain ⟨r, hr, hb⟩ := h
  apply isEmpty_false_of_ne_nil
  intro he
  have hmem : r ∈ rows.filter (fun r => lowerS r.brand == lowerS hint) :=
    List.mem_filter.mpr ⟨hr, by simp [hb]⟩
  rw [he] at hmem
  exact absurd hmem (List.not_mem_nil r)

/-- C2: with a brand hint present, rows are filtered to a case-insensitive
exact brand match; when the filter would eliminate every row the unfiltered
set is used instead, so the filter never produces an empty row set from a
non-empty one. -/
theorem c2_brand_filter_fallback (hint : Str) (rows : List CtxRow) :
    ((∃ r ∈ rows, lowerS r.brand = lowerS hint) →
       brandFilter hint rows = rows.filter (fun r => lowerS r.brand == lowerS hint) ∧
       ∀ r ∈ brandFilter hint rows, lowerS r.brand = lowerS hint) ∧
    ((∀ r ∈ rows, lowerS r.brand ≠ lowerS hint) → brandFilter hint rows = rows) ∧
    (rows ≠ [] → brandFilter hint rows ≠ []) := by
  refine ⟨?_, ?_, fun h => brandFilter_ne_nil hint h⟩
  · intro hex
    have hie := c2_helper_filter_ne_nil hex
    have heq : brandFilter hint rows = rows.filter (fun r => lowerS r.brand == lowerS hint) := by
      unfold brandFilter
      rw [if_neg (by rw [hie]; exact Bool.false_ne_true)]
    refine ⟨heq, ?_⟩
    intro r hr
    rw [heq] at hr
    have := (List.mem_filter.mp hr).2
    simpa using this
  · intro hall
    have hnil : rows.filter (fun r => lowerS r.brand == lowerS hint) = [] := by
      rw [List.filter_eq_nil_iff]
      intro a ha
      simpa using hall a ha
    unfold brandFilter
    rw [if_pos (by rw [hnil]; rfl)]

theorem c2_witness :
    brandFilter (strL "nike") [wRow1, wRow2] = [wRow2] ∧
    brandFilter (strL "Reebok") [wRow1, wRow2] = [wRow1, wRow2] ∧
    brandFilter (strL "Reebok") [wRow1, wRow2] ≠ [] := by
  refine ⟨?_, ?_, ?_⟩
  · exact ((c2_brand_filter_fallback (strL "nike") [wRow1, wRow2]).1
      (by decide)).1.trans (by decide)
  · exact (c2_brand_filter_fallback (strL "Reebok") [wRow1, wRow2]).2.1 (by decide)
  · exact (c2_brand_filter_fallback (strL "Reebok") [wRow1, wRow2]).2.2 (by decide)

/-- C5: the price normalizer is total; raised errors inside the try block
degrade to an absent result, and the absent result is returned for `None`
input, for non-numeric strings, and for mappings, sequences and other
objects. -/
theorem c5_total_absent (c : Str) :
    format_price .none c = Option.none ∧
    format_price .dict c = Option.none ∧
    format_price .list c = Option.none ∧
    format_price .obj c = Option.none ∧
    (∀ s, pyNumeralCheck s = false → format_price (.str s) c = Option.none) ∧
    (∀ v e, format_priceTry v c = .error e → format_price v c = Option.none) := by
  refine ⟨rfl, rfl, rfl, rfl, ?_, ?_⟩
  · intro s hs
    simp [format_price, format_priceTry, hs]
  · intro v e he
    cases v <;> simp [format_price, he]

theorem c5_witness :
    pyNumeralCheck (strL "abc") = false ∧
    format_price (.str (strL "abc")) (strL "$") = Option.none ∧
    format_price .none (strL "$") = Option.none ∧
    format_price .dict (strL "$") = Option.none ∧
    format_price .list (strL "$") = Option.none := by
  refine ⟨by decide, ?_, ?_, ?_, ?_⟩
  · exact (c5_total_absent (strL "$")).2.2.2.2.1 (strL "abc") (by decide)
  · exact (c5_total_absent (strL "$")).1
  · exact (c5_total_absent (strL "$")).2.1
  · exact (c5_total_absent (strL "$")).2.2.1

/-- C6: a similarity-search exception or an empty hit list makes context
retrieval return exactly the literal string, and the failure is absorbed:
the chat pipeline still returns a successful reply. -/
theorem c6_no_context_literal (query : Str) (res : Except Unit (List Hit)) :
    (res = .error () ∨ res = .ok [] → _get_context query res = noCtx) ∧
    (∀ (k : Str) (f : Str → Option Str) (history : List Str), k ≠ [] →
       ∃ out, generate_response (some k) f query history (.error ()) = .ok out) := by
  constructor
  · rintro (rfl | rfl) <;> rfl
  · intro k f history hk
    have hke : k.isEmpty = false := isEmpty_false_of_ne_nil hk
    refine ⟨(pyStrip ((f (promptOf query history (_get_context query (.error ())))).getD []),
      history ++ [strL "User: " ++ query, strL "Assistant: "
        ++ pyStrip ((f (promptOf query history (_get_context query (.error ())))).getD [])]), ?_⟩
    simp only [generate_response, hke, Bool.false_eq_true, if_false]

theorem c6_witness :
    _get_context (strL "hi") (.error ()) = noCtx ∧
    _get_context (strL "hi") (.ok []) = noCtx ∧
    ∃ out, generate_response (some (strL "k")) (fun _ => Option.none) (strL "hi") []
      (.error ()) = .ok out := by
  refine ⟨?_, ?_, ?_⟩
  · exact (c6_no_context_literal (strL "hi") (.error ())).1 (Or.inl rfl)
  · exact (c6_no_context_literal (strL "hi") (.ok [])).1 (Or.inr rfl)
  · exact (c6_no_context_literal (strL "hi") (.error ())).2 (strL "k")
      (fun _ => Option.none) [] (by decide)

/-- C7: the response generator returns the whitespace-trimmed reply and a
newly built history equal to the input extended by exactly the two turns
`User: {query}` and `Assistant: {reply}`; an empty model text yields the
empty reply while the history still gains exactly two entries. -/
theorem c7_generate_response (query : Str) (history : List Str) (k : Str)
    (f : Str → Option Str) (res : Except Unit (List Hit)) (hk : k ≠ []) :
    ∃ reply,
      generate_response (some k) f query history res =
        .ok (reply, history ++ [strL "User: " ++ query, strL "Assistant: " ++ reply]) ∧
      reply = pyStrip ((f (promptOf query history (_get_context query res))).getD []) ∧
      (history ++ [strL "User: " ++ query, strL "Assistant: " ++ reply]).length =
        history.length + 2 ∧
      (f (promptOf query history (_get_context query res)) = some [] → reply = []) := by
  have hke : k.isEmpty = false := isEmpty_false_of_ne_nil hk
  refine ⟨pyStrip ((f (promptOf query history (_get_context query res))).getD []),
    ?_, rfl, by simp, ?_⟩
  · simp only [generate_response, hke, Bool.false_eq_true, if_false]
  · intro hf
    rw [hf]
    rfl

theorem c7_witness :
    ∃ reply,
      generate_response (some (strL "k")) (fun _ => some []) (strL "q") [strL "User: a"]
        (.ok []) = .ok (reply,
          [strL "User: a"] ++ [strL "User: " ++ strL "q", strL "Assistant: " ++ reply]) ∧
      reply = pyStrip (((fun (_ : Str) => some ([] : Str))
        (promptOf (strL "q") [strL "User: a"] (_get_context (strL "q") (.ok [])))).getD []) ∧
      ([strL "User: a"] ++ [strL "User: " ++ strL "q", strL "Assistant: " ++ reply]).length =
        ([strL "User: a"] : List Str).length + 2 ∧
      ((fun (_ : Str) => some ([] : Str))
          (promptOf (strL "q") [strL "User: a"] (_get_context (strL "q") (.ok []))) = some [] →
        reply = []) :=
  c7_generate_response (strL "q") [strL "User: a"] (strL "k") (fun _ => some []) (.ok [])
    (by decide)

/-- C9: the product listing maps every fetched row to itself augmented with
a `price_display` computed by the price normalizer (an absent price giving
an explicit null, the row still returned), and a store failure yields a
single error whose detail is prefixed `DB error: `, with no rows. -/
theorem c9_products (fetch : Except Str (List ProductRow)) :
    (∀ rows, fetch = .ok rows →
       get_products fetch =
         .ok (rows.map (fun r => (⟨r, format_price r.price (strL "$")⟩ : ProductOut))) ∧
       (rows.map (fun r => (⟨r, format_price r.price (strL "$")⟩ : ProductOut))).length =
         rows.length ∧
       ∀ r ∈ rows,
         (⟨r, format_price r.price (strL "$")⟩ : ProductOut) ∈
           rows.map (fun r => (⟨r, format_price r.price (strL "$")⟩ : ProductOut)) ∧
         (r.price = .none → format_price r.price (strL "$") = Option.none)) ∧
    (∀ e, fetch = .error e →
       get_products fetch = .error ⟨500, strL "DB error: " ++ e⟩) := by
  constructor
  · rintro rows rfl
    refine ⟨rfl, by simp, ?_⟩
    intro r hr
    exact ⟨List.mem_map_of_mem _ hr, fun hp => by rw [hp]; rfl⟩
  · rintro e rfl
    rfl

theorem c9_witness :
    get_products (.ok [wProdRow, wProdRowN]) =
      .ok ([wProdRow, wProdRowN].map
        (fun r => (⟨r, format_price r.price (strL "$")⟩ : ProductOut))) ∧
    format_price wProdRow.price (strL "$") = some (strL "$1,299.00") ∧
    format_price wProdRowN.price (strL "$") = Option.none ∧
    get_products (.error (strL "boom")) =
      .error ⟨500, strL "DB error: " ++ strL "boom"⟩ ∧
    strL "DB error: " ++ strL "boom" = strL "DB error: boom" := by
  refine ⟨?_, by with_unfolding_all decide, rfl, ?_, by decide⟩
  · exact ((c9_products (.ok [wProdRow, wProdRowN])).1 [wProdRow, wProdRowN] rfl).1
  · exact (c9_products (.error (strL "boom"))).2 (strL "boom") rfl

/-! ## The listy regex: boundary scanning matches whole word tokens -/

theorem boundaryOK_iff (s : Str) : boundaryOK s = true ↔ s.takeWhile isWordChar = [] := by
  cases s with
  | nil => simp [boundaryOK, List.takeWhile]
  | cons c cs =>
    cases hc : isWordChar c <;> simp [boundaryOK, hc, List.takeWhile]

theorem listyWords_spec : ∀ w ∈ listyWords, w ≠ [] ∧ ∀ a ∈ w, isLowerA a = true := by
  decide

theorem isWordChar_of_lowerC {c : Char} (h : isLowerA (lowerC c) = true) :
    isWordChar c = true := by
  by_cases hu : isUpperA c = true
  · simp [isWordChar, isAlphaA, hu]
  · unfold lowerC at h
    rw [if_neg hu] at h
    simp [isWordChar, isAlphaA, h]

theorem ciWordAt_cons (a : Char) (as : Str) (c : Char) (cs : Str) :
    ciWordAt (a :: as) (c :: cs) = if lowerC c = a then ciWordAt as cs else false := by
  by_cases h : lowerC c = a <;> simp [ciWordAt, stripCIPre, h]

theorem ciWordAt_iff (w : Str) (hw : w ≠ []) (hlow : ∀ a ∈ w, isLowerA a = true) :
    ∀ s, ciWordAt w s = true ↔ lowerS (s.takeWhile isWordChar) = w := by
  induction w with
  | nil => exact absurd rfl hw
  | cons a as ih =>
    intro s
    have ha : isLowerA a = true := hlow a (List.mem_cons_self a as)
    cases s with
    | nil => simp [ciWordAt, stripCIPre, lowerS, List.takeWhile]
    | cons c cs =>
      rw [ciWordAt_cons]
      by_cases hc : lowerC c = a
      · have hcw : isWordChar c = true := isWordChar_of_lowerC (by rw [hc]; exact ha)
        rw [if_pos hc]
        cases as with
        | nil =>
          rw [show ciWordAt [] cs = boundaryOK cs from rfl, boundaryOK_iff]
          simp [lowerS, List.takeWhile, hcw, hc]
        | cons b bs =>
          rw [ih (by simp) (fun x hx => hlow x (List.mem_cons_of_mem a hx)) cs]
          simp [lowerS, List.takeWhile, hcw, hc]
      · rw [if_neg hc]
        simp only [Bool.false_eq_true, false_iff]
        intro hcontra
        cases hcw : isWordChar c with
        | false =>
          rw [show (c :: cs).takeWhile isWordChar = [] from by simp [List.takeWhile, hcw]]
            at hcontra
          simp [lowerS] at hcontra
        | true =>
          rw [show (c :: cs).takeWhile isWordChar = c :: cs.takeWhile isWordChar from by
            simp [List.takeWhile, hcw]] at hcontra
          simp [lowerS] at hcontra
          exact hc hcontra.1

theorem headMatchesListy_iff (s : Str) :
    headMatchesListy s = true ↔ lowerS (s.takeWhile isWordChar) ∈ listyWords := by
  rw [headMatchesListy, List.any_eq_true]
  constructor
  · rintro ⟨w, hw, hci⟩
    obtain ⟨hne, hlow⟩ := listyWords_spec w hw
    rw [ciWordAt_iff w hne hlow s] at hci
    rw [hci]
    exact hw
  · intro hmem
    obtain ⟨hne, hlow⟩ := listyWords_spec _ hmem
    exact ⟨_, hmem, (ciWordAt_iff _ hne hlow s).mpr rfl⟩

theorem headMatchesListy_nonword {c : Char} (cs : Str) (hc : isWordChar c = false) :
    headMatchesListy (c :: cs) = false := by
  by_contra h
  rw [Bool.not_eq_false, headMatchesListy_iff] at h
  rw [show (c :: cs).takeWhile isWordChar = [] from by simp [List.takeWhile, hc]] at h
  rw [show lowerS [] = [] from rfl] at h
  exact absurd h (by decide)

theorem listySearch_false_eq (s : Str) :
    listySearch false s = listySearch true (s.dropWhile isWordChar) := by
  induction s with
  | nil => rfl
  | cons c cs ih =>
    cases hc : isWordChar c
    case true =>
      rw [show listySearch false (c :: cs) = listySearch false cs from by
        simp [listySearch, hc]]
      rw [show (c :: cs).dropWhile isWordChar = cs.dropWhile isWordChar from by
        simp [List.dropWhile, hc]]
      exact ih
    case false =>
      rw [show listySearch false (c :: cs) = listySearch true cs from by
        simp [listySearch, hc]]
      rw [show (c :: cs).dropWhile isWordChar = c :: cs from by simp [List.dropWhile, hc]]
      rw [show listySearch true (c :: cs) =
        (headMatchesListy (c :: cs) || listySearch true cs) from by simp [listySearch, hc]]
      rw [headMatchesListy_nonword cs hc]
      simp

theorem tokensGo_ne_nil_cur (s : Str) :
    ∀ (cur : Str), cur.isEmpty = false →
      tokensGo cur s =
        (cur.reverse ++ s.takeWhile isWordChar) :: tokensGo [] (s.dropWhile isWordChar) := by
  induction s with
  | nil =>
    intro cur hcur
    simp [tokensGo, hcur, List.takeWhile, List.dropWhile]
  | cons c cs ih =>
    intro cur hcur
    cases hc : isWordChar c
    case true =>
      rw [show tokensGo cur (c :: cs) = tokensGo (c :: cur) cs from by simp [tokensGo, hc]]
      rw [ih (c :: cur) rfl]
      rw [show (c :: cs).takeWhile isWordChar = c :: cs.takeWhile isWordChar from by
        simp [List.takeWhile, hc]]
      rw [show (c :: cs).dropWhile isWordChar = cs.dropWhile isWordChar from by
        simp [List.dropWhile, hc]]
      simp
    case false =>
      rw [show tokensGo cur (c :: cs) = cur.reverse :: tokensGo [] cs from by
        simp [tokensGo, hc, hcur]]
      rw [show (c :: cs).takeWhile isWordChar = [] from by simp [List.takeWhile, hc]]
      rw [show (c :: cs).dropWhile isWordChar = c :: cs from by simp [List.dropWhile, hc]]
      rw [show tokensGo [] (c :: cs) = tokensGo [] cs from by simp [tokensGo, hc]]
      simp

theorem dropWhileW_length (s : Str) : (s.dropWhile isWordChar).length ≤ s.length := by
  induction s with
  | nil => simp
  | cons c cs ih =>
    cases hc : isWordChar c
    case true =>
      rw [show (c :: cs).dropWhile isWordChar = cs.dropWhile isWordChar from by
        simp [List.dropWhile, hc]]
      simp only [List.length_cons]
      omega
    case false =>
      rw [show (c :: cs).dropWhile isWordChar = c :: cs from by simp [List.dropWhile, hc]]

theorem listySearch_iff_tokens : ∀ (n : ℕ) (s : Str), s.length ≤ n →
    (listySearch true s = true ↔ ∃ t ∈ tokensGo [] s, lowerS t ∈ listyWords) := by
  intro n
  induction n with
  | zero =>
    intro s hs
    have hnil : s = [] := List.length_eq_zero.mp (Nat.le_zero.mp hs)
    subst hnil
    simp [listySearch, tokensGo]
  | succ n ih =>
    intro s hs
    cases s with
    | nil => simp [listySearch, tokensGo]
    | cons c cs =>
      have hcs : cs.length ≤ n := by
        simp only [List.length_cons] at hs
        omega
      cases hc : isWordChar c
      case false =>
        rw [show listySearch true (c :: cs) = listySearch true cs from by
          simp [listySearch, hc, headMatchesListy_nonword cs hc]]
        rw [show tokensGo [] (c :: cs) = tokensGo [] cs from by simp [tokensGo, hc]]
        exact ih cs hcs
      case true =>
        rw [show listySearch true (c :: cs) =
          (headMatchesListy (c :: cs) || listySearch false cs) from by
            simp [listySearch, hc]]
        rw [listySearch_false_eq, Bool.or_eq_true, headMatchesListy_iff]
        rw [show tokensGo [] (c :: cs) = tokensGo [c] cs from by simp [tokensGo, hc]]
        rw [tokensGo_ne_nil_cur cs [c] rfl]
        have hdw : (cs.dropWhile isWordChar).length ≤ n :=
          le_trans (dropWhileW_length cs) hcs
        rw [ih (cs.dropWhile isWordChar) hdw]
        rw [show (c :: cs).takeWhile isWordChar = c :: cs.takeWhile isWordChar from by
          simp [List.takeWhile, hc]]
        simp [List.mem_cons]

theorem wantAll_iff_token (query : Str) :
    wantAll query = true ↔ ∃ t ∈ wordTokens query, lowerS t ∈ listyWords :=
  listySearch_iff_tokens query.length query le_rfl

/-! ## Dedup lemmas -/

theorem dedupGo_sublist (rows : List CtxRow) :
    ∀ seen : List RKey, (dedupGo seen rows).Sublist rows := by
  induction rows with
  | nil => intro seen; simp [dedupGo]
  | cons r rs ih =>
    intro seen
    by_cases h : rowKey r ∈ seen
    · rw [show dedupGo seen (r :: rs) = dedupGo seen rs from by simp [dedupGo, h]]
      exact (ih seen).cons r
    · rw [show dedupGo seen (r :: rs) = r :: dedupGo (rowKey r :: seen) rs from by
        simp [dedupGo, h]]
      exact (ih _).cons₂ r

theorem dedupGo_first (rows : List CtxRow) :
    ∀ seen : List RKey, ∀ x ∈ dedupGo seen rows,
      rowKey x ∉ seen ∧ rows.find? (fun r => decide (rowKey r = rowKey x)) = some x := by
  induction rows with
  | nil => intro seen x hx; simp [dedupGo] at hx
  | cons r rs ih =>
    intro seen x hx
    by_cases h : rowKey r ∈ seen
    · rw [show dedupGo seen (r :: rs) = dedupGo seen rs from by simp [dedupGo, h]] at hx
      obtain ⟨h1, h2⟩ := ih seen x hx
      have hne : ¬(rowKey r = rowKey x) := fun he => h1 (he ▸ h)
      refine ⟨h1, ?_⟩
      rw [List.find?_cons]
      rw [show (decide (rowKey r = rowKey x)) = false from by simp [hne]]
      exact h2
    · rw [show dedupGo seen (r :: rs) = r :: dedupGo (rowKey r :: seen) rs from by
        simp [dedupGo, h]] at hx
      rcases List.mem_cons.mp hx with rfl | hx
      · refine ⟨h, ?_⟩
        rw [List.find?_cons]
        rw [show (decide (rowKey x = rowKey x)) = true from by simp]
      · obtain ⟨h1, h2⟩ := ih _ x hx
        have hnr : ¬(rowKey r = rowKey x) := fun he => h1 (by rw [← he]; exact List.mem_cons_self _ _)
        have hns : rowKey x ∉ seen := fun hs => h1 (List.mem_cons_of_mem _ hs)
        refine ⟨hns, ?_⟩
        rw [List.find?_cons]
        rw [show (decide (rowKey r = rowKey x)) = false from by simp [hnr]]
        exact h2

theorem dedupGo_nodup (rows : List CtxRow) :
    ∀ seen : List RKey,
      ((dedupGo seen rows).map rowKey).Nodup ∧
      ∀ k ∈ (dedupGo seen rows).map rowKey, k ∉ seen := by
  induction rows with
  | nil => intro seen; simp [dedupGo]
  | cons r rs ih =>
    intro seen
    by_cases h : rowKey r ∈ seen
    · rw [show dedupGo seen (r :: rs) = dedupGo seen rs from by simp [dedupGo, h]]
      exact ih seen
    · rw [show dedupGo seen (r :: rs) = r :: dedupGo (rowKey r :: seen) rs from by
        simp [dedupGo, h]]
      obtain ⟨h1, h2⟩ := ih (rowKey r :: seen)
      constructor
      · simp only [List.map_cons, List.nodup_cons]
        exact ⟨fun hm => (h2 _ hm) (List.mem_cons_self _ _), h1⟩
      · intro k hk
        simp only [List.map_cons, List.mem_cons] at hk
        rcases hk with rfl | hk
        · exact h
        · exact fun hks => (h2 k hk) (List.mem_cons_of_mem _ hks)

theorem dedupGo_covers (rows : List CtxRow) :
    ∀ seen : List RKey, ∀ r ∈ rows,
      rowKey r ∈ seen ∨ rowKey r ∈ (dedupGo seen rows).map rowKey := by
  induction rows with
  | nil => intro seen r hr; simp at hr
  | cons r rs ih =>
    intro seen x hx
    by_cases h : rowKey r ∈ seen
    · rw [show dedupGo seen (r :: rs) = dedupGo seen rs from by simp [dedupGo, h]]
      rcases List.mem_cons.mp hx with rfl | hx
      · exact Or.inl h
      · exact ih seen x hx
    · rw [show dedupGo seen (r :: rs) = r :: dedupGo (rowKey r :: seen) rs from by
        simp [dedupGo, h]]
      rcases List.mem_cons.mp hx with rfl | hx
      · right
        simp
      · rcases ih (rowKey r :: seen) x hx with hm | hm
        · rcases List.mem_cons.mp hm with he | hs
          · right
            simp [he]
          · exact Or.inl hs
        · right
          simp only [List.map_cons, List.mem_cons]
          exact Or.inr hm

theorem dedupRows_ne_nil {rows : List CtxRow} (h : rows ≠ []) : dedupRows rows ≠ [] := by
  cases rows with
  | nil => exact absurd rfl h
  | cons r rs => simp [dedupRows, dedupGo]

theorem take_ne_nil_of {n : ℕ} {l : List CtxRow} (hn : n ≠ 0) (hl : l ≠ []) :
    l.take n ≠ [] := by
  cases l with
  | nil => exact absurd rfl hl
  | cons a as =>
    cases n with
    | zero => exact absurd rfl hn
    | succ m => simp

/-- C1: after the optional brand filter, rows are deduplicated by the
case-insensitive `(brand, name)` pair in first-seen order, and all
deduplicated rows are kept exactly when the query contains a whole word of
`{all, list, other, others, more, everything}` case-insensitively; otherwise
only the first 3 remain. -/
theorem c1_dedup_truncation (query : Str) (rows : List CtxRow) :
    itemsOf query rows =
      (if wantAll query then dedupRows rows else (dedupRows rows).take 3) ∧
    (wantAll query = true ↔ ∃ t ∈ wordTokens query, lowerS t ∈ listyWords) ∧
    (dedupRows rows).Sublist rows ∧
    ((dedupRows rows).map rowKey).Nodup ∧
    (∀ r ∈ rows, rowKey r ∈ (dedupRows rows).map rowKey) ∧
    (∀ x ∈ dedupRows rows,
       rows.find? (fun r => decide (rowKey r = rowKey x)) = some x) := by
  refine ⟨?_, wantAll_iff_token query, dedupGo_sublist rows [], (dedupGo_nodup rows []).1,
    ?_, ?_⟩
  · unfold itemsOf
    cases hw : wantAll query
    · rw [if_neg (by simp [hw]), if_neg (by simp [hw]), take_min_three]
    · rw [if_pos (by simp [hw]), if_pos (by simp [hw]), List.take_length]
  · intro r hr
    rcases dedupGo_covers rows [] r hr with h | h
    · exact absurd h (List.not_mem_nil _)
    · exact h
  · intro x hx
    exact (dedupGo_first rows [] x hx).2

theorem c1_witness :
    itemsOf (strL "show me all vans") [wRow1, wRow3, wRow2] =
      dedupRows [wRow1, wRow3, wRow2] ∧
    wantAll (strL "show me all vans") = true ∧
    dedupRows [wRow1, wRow3, wRow2] = [wRow1, wRow2] ∧
    itemsOf (strL "anything nice?") [wRow1, wRow3, wRow2] =
      (dedupRows [wRow1, wRow3, wRow2]).take 3 ∧
    wantAll (strL "anything nice?") = false := by
  refine ⟨?_, by decide, by decide, ?_, by decide⟩
  · exact (c1_dedup_truncation (strL "show me all vans") [wRow1, wRow3, wRow2]).1.trans
      (by rw [if_pos (by decide)])
  · exact (c1_dedup_truncation (strL "anything nice?") [wRow1, wRow3, wRow2]).1.trans
      (by rw [if_neg (by decide)])

/-! ## C10 : the no-context literal is unreachable on a non-empty hit list -/

theorem joinNL_cons (a : Str) (l : List Str) : ∃ t, joinNL (a :: l) = a ++ t := by
  cases l with
  | nil => exact ⟨[], by simp [joinNL]⟩
  | cons b r => exact ⟨'\n' :: joinNL (b :: r), rfl⟩

theorem renderContext_shape (items : List CtxRow) :
    ∃ t, renderContext items = strL "Items:" ++ t := by
  unfold renderContext
  rw [List.cons_append]
  exact joinNL_cons _ _

theorem renderContext_ne_noCtx (items : List CtxRow) : renderContext items ≠ noCtx := by
  obtain ⟨t, ht⟩ := renderContext_shape items
  rw [ht]
  intro h
  have hhead := congrArg List.head? h
  rw [show strL "Items:" = 'I' :: strL "tems:" from rfl, List.cons_append] at hhead
  rw [show noCtx = 'N' :: strL "o relevant context found." from rfl] at hhead
  simp only [List.head?_cons, Option.some.injEq] at hhead
  exact absurd hhead (by decide)

/-- C10: whenever the similarity search succeeds with at least one hit, the
rendered context contains at least one item row and the literal
`No relevant context found.` is unreachable. -/
theorem c10_nonempty_context (query : Str) (hits : List Hit) (h : hits ≠ []) :
    itemsOf query (rowsAfterHint (_extract_brand_hint query) (hits.map _hit_to_row)) ≠ [] ∧
    _get_context query (.ok hits) ≠ noCtx := by
  have hrows : hits.map _hit_to_row ≠ [] := by
    cases hits with
    | nil => exact absurd rfl h
    | cons a as => simp
  have hr2 : rowsAfterHint (_extract_brand_hint query) (hits.map _hit_to_row) ≠ [] :=
    rowsAfterHint_ne_nil _ hrows
  have hu : dedupRows (rowsAfterHint (_extract_brand_hint query) (hits.map _hit_to_row)) ≠ [] :=
    dedupRows_ne_nil hr2
  have hitems : itemsOf query (rowsAfterHint (_extract_brand_hint query)
      (hits.map _hit_to_row)) ≠ [] := by
    unfold itemsOf
    cases hw : wantAll query
    · rw [if_neg (by simp [hw]), take_min_three]
      exact take_ne_nil_of (by decide) hu
    · rw [if_pos (by simp [hw]), List.take_length]
      exact hu
  refine ⟨hitems, ?_⟩
  have hie : hits.isEmpty = false := isEmpty_false_of_ne_nil h
  rw [show _get_context query (.ok hits) =
    (if hits.isEmpty = true then noCtx
     else renderContext (itemsOf query
       (rowsAfterHint (_extract_brand_hint query) (hits.map _hit_to_row)))) from rfl]
  rw [if_neg (by rw [hie]; exact Bool.false_ne_true)]
  exact renderContext_ne_noCtx _

theorem c10_witness :
    itemsOf (strL "hi") (rowsAfterHint (_extract_brand_hint (strL "hi"))
      ([wHit].map _hit_to_row)) ≠ [] ∧
    _get_context (strL "hi") (.ok [wHit]) ≠ noCtx :=
  c10_nonempty_context (strL "hi") [wHit] (by decide)

/-! ## C8 : brand hint extraction -/

theorem pyMaxByLen_cons (c x : Str) (xs : List Str) :
    pyMaxByLen c (x :: xs) = pyMaxByLen (if c.length < x.length then x else c) xs := rfl

theorem pyMaxByLen_spec (cs : List Str) :
    ∀ c : Str, pyMaxByLen c cs ∈ c :: cs ∧
      ∀ y ∈ c :: cs, y.length ≤ (pyMaxByLen c cs).length := by
  induction cs with
  | nil =>
    intro c
    constructor
    · simp [pyMaxByLen]
    · intro y hy
      simp only [List.mem_singleton] at hy
      rw [hy]
      simp [pyMaxByLen]
  | cons x xs ih =>
    intro c
    rw [pyMaxByLen_cons]
    by_cases hl : c.length < x.length
    · rw [if_pos hl]
      obtain ⟨hm, hmax⟩ := ih x
      constructor
      · rcases List.mem_cons.mp hm with he | he
        · rw [he]
          simp
        · simp [he]
      · intro y hy
        rcases List.mem_cons.mp hy with rfl | hy2
        · exact le_trans (le_of_lt hl) (hmax _ (List.mem_cons_self _ _))
        rcases List.mem_cons.mp hy2 with rfl | hy3
        · exact hmax _ (List.mem_cons_self _ _)
        · exact hmax y (List.mem_cons_of_mem _ hy3)
    · rw [if_neg hl]
      obtain ⟨hm, hmax⟩ := ih c
      constructor
      · rcases List.mem_cons.mp hm with he | he
        · rw [he]
          simp
        · simp [he]
      · intro y hy
        rcases List.mem_cons.mp hy with rfl | hy2
        · exact hmax _ (List.mem_cons_self _ _)
        rcases List.mem_cons.mp hy2 with rfl | hy3
        · exact le_trans (not_lt.mp hl) (hmax _ (List.mem_cons_self _ _))
        · exact hmax y (List.mem_cons_of_mem _ hy3)

/-- C8: brand-hint extraction returns the longest (first on ties, by
Python's `max`) capitalized-word-sequence candidate produced by the regex
scan when one exists; with no candidate it falls back to the fixed
case-insensitive brand keyword list, and with no keyword match the hint is
absent. -/
theorem c8_brand_hint (text : Str) :
    (findCandidates text ≠ [] →
       ∃ b, _extract_brand_hint text = some b ∧ b ∈ findCandidates text ∧
         ∀ cand ∈ findCandidates text, cand.length ≤ b.length) ∧
    (findCandidates text = [] → _extract_brand_hint text = fallbackBrand text) ∧
    (findCandidates text = [] → fallbackBrand text = Option.none →
       _extract_brand_hint text = Option.none) := by
  refine ⟨?_, ?_, ?_⟩
  · intro h
    cases hc : findCandidates text with
    | nil => exact absurd hc h
    | cons c cs =>
      obtain ⟨hm, hmax⟩ := pyMaxByLen_spec cs c
      refine ⟨pyMaxByLen c cs, ?_, ?_, ?_⟩
      · unfold _extract_brand_hint
        rw [hc]
      · exact hm
      · intro cand hcand
        exact hmax cand hcand
  · intro h
    unfold _extract_brand_hint
    rw [h]
  · intro h hf
    unfold _extract_brand_hint
    rw [h]
    exact hf

theorem c8_witness :
    (∃ b, _extract_brand_hint (strL "show me New Balance and Nike shoes") = some b ∧
       b ∈ findCandidates (strL "show me New Balance and Nike shoes") ∧
       ∀ cand ∈ findCandidates (strL "show me New Balance and Nike shoes"),
         cand.length ≤ b.length) ∧
    _extract_brand_hint (strL "show me New Balance and Nike shoes") =
      some (strL "New Balance") ∧
    findCandidates (strL "show me New Balance and Nike shoes") =
      [strL "New Balance", strL "Nike"] ∧
    _extract_brand_hint (strL "got any vans?") = some (strL "Vans") ∧
    _extract_brand_hint (strL "got any boots?") = Option.none := by
  exact ⟨(c8_brand_hint _).1 (by decide), by decide, by decide, by decide, by decide⟩

/-! ## Rounding lemmas -/

theorem rne_intCast (m : ℤ) : rne (m : ℚ) = m := by
  unfold rne
  rw [Int.floor_intCast, sub_self]
  norm_num

theorem rne_natCast (n : ℕ) : rne (n : ℚ) = n := by
  have h := rne_intCast (n : ℤ)
  rwa [Int.cast_natCast] at h

theorem rne_err (q : ℚ) : |(rne q : ℚ) - q| ≤ 1/2 := by
  have h1 : (⌊q⌋ : ℚ) ≤ q := Int.floor_le q
  have h2 : q < ⌊q⌋ + 1 := Int.lt_floor_add_one q
  unfold rne
  by_cases ha : q - ⌊q⌋ < 1/2
  · rw [if_pos ha, abs_le]
    constructor <;> linarith
  · rw [if_neg ha]
    by_cases hb : 1/2 < q - ⌊q⌋
    · rw [if_pos hb]
      push_cast
      rw [abs_le]
      constructor <;> linarith
    · rw [if_neg hb]
      have hra := not_lt.mp ha
      have hrb := not_lt.mp hb
      by_cases hc : (2:ℤ) ∣ ⌊q⌋
      · rw [if_pos hc, abs_le]
        constructor <;> linarith
      · rw [if_neg hc]
        push_cast
        rw [abs_le]
        constructor <;> linarith

theorem rne_eq_of_close (q : ℚ) (m : ℤ) (h : |q - m| < 1/2) : rne q = m := by
  rw [abs_lt] at h
  obtain ⟨h1, h2⟩ := h
  rcases le_or_lt (m : ℚ) q with hle | hlt
  · have hf : ⌊q⌋ = m := by
      rw [Int.floor_eq_iff]
      refine ⟨hle, ?_⟩
      linarith
    unfold rne
    rw [hf, if_pos (by linarith)]
  · have hf : ⌊q⌋ = m - 1 := by
      rw [Int.floor_eq_iff]
      constructor
      · push_cast
        linarith
      · push_cast
        linarith
    unfold rne
    rw [hf]
    rw [if_neg (by push_cast; linarith), if_pos (by push_cast; linarith)]
    omega

/-! ## Binary exponent bracketing -/

theorem log2F_bracket : ∀ (f n : ℕ), 1 ≤ n → n ≤ f →
    2 ^ log2F f n ≤ n ∧ n < 2 ^ (log2F f n + 1) := by
  intro f
  induction f with
  | zero => intro n h1 h2; omega
  | succ f ih =>
    intro n h1 h2
    by_cases hn : n ≤ 1
    · have he : n = 1 := le_antisymm hn h1
      subst he
      simp [log2F]
    · rw [show log2F (f + 1) n = log2F f (n / 2) + 1 from by simp [log2F, hn]]
      obtain ⟨ha, hb⟩ := ih (n / 2) (by omega) (by omega)
      constructor
      · rw [pow_succ]
        omega
      · have hb2 : n / 2 < 2 ^ log2F f (n / 2) * 2 := by
          rw [← pow_succ]
          exact hb
        rw [pow_succ, pow_succ]
        omega

theorem nlog2_bracket (n : ℕ) (h : 1 ≤ n) : 2 ^ nlog2 n ≤ n ∧ n < 2 ^ (nlog2 n + 1) :=
  log2F_bracket n n h le_rfl

theorem two_zpow_le {m n : ℤ} (h : m ≤ n) : (2:ℚ) ^ m ≤ 2 ^ n :=
  zpow_le_zpow_right₀ one_le_two h

theorem elogQ_bracket (q : ℚ) (hq : 0 < q) :
    (2:ℚ) ^ (elogQ q - 1) ≤ q ∧ q < 2 ^ elogQ q := by
  have hden0 : 0 < q.den := q.den_pos
  have hdenQ : (0:ℚ) < (q.den : ℚ) := by exact_mod_cast hden0
  have hnum : 1 ≤ q.num := by
    have := Rat.num_pos.mpr hq
    omega
  have hqden : q * (q.den : ℚ) = (q.num : ℚ) := by
    have hnd := Rat.num_div_den q
    calc q * (q.den : ℚ) = ((q.num : ℚ) / (q.den : ℚ)) * (q.den : ℚ) := by rw [hnd]
    _ = (q.num : ℚ) := div_mul_cancel₀ _ (ne_of_gt hdenQ)
  have hk : (q.den : ℚ) < 2 ^ (nlog2 q.den + 1) := by
    have h2 := (nlog2_bracket q.den hden0).2
    exact_mod_cast h2
  have hone : (1:ℚ) ≤ q * 2 ^ (nlog2 q.den + 1) := by
    have h1 : (1:ℚ) ≤ q * (q.den : ℚ) := by
      rw [hqden]
      exact_mod_cast hnum
    have h2 : q * (q.den : ℚ) ≤ q * 2 ^ (nlog2 q.den + 1) :=
      mul_le_mul_of_nonneg_left (le_of_lt hk) (le_of_lt hq)
    linarith
  have hfl0 : (1:ℤ) ≤ ⌊q * 2 ^ (nlog2 q.den + 1)⌋ := by
    rw [Int.le_floor]
    exact_mod_cast hone
  set m := Int.toNat ⌊q * 2 ^ (nlog2 q.den + 1)⌋ with hm
  have hm1 : 1 ≤ m := by omega
  have hcastm : (m : ℤ) = ⌊q * 2 ^ (nlog2 q.den + 1)⌋ := Int.toNat_of_nonneg (by omega)
  have hfl : (m : ℚ) ≤ q * 2 ^ (nlog2 q.den + 1) := by
    have hx := Int.floor_le (q * 2 ^ (nlog2 q.den + 1))
    rw [← hcastm] at hx
    exact_mod_cast hx
  have hfu : q * 2 ^ (nlog2 q.den + 1) < (m : ℚ) + 1 := by
    have hx := Int.lt_floor_add_one (q * 2 ^ (nlog2 q.den + 1))
    rw [← hcastm] at hx
    exact_mod_cast hx
  obtain ⟨hL1, hL2⟩ := nlog2_bracket m hm1
  have hlow : (2:ℚ) ^ nlog2 m ≤ q * 2 ^ (nlog2 q.den + 1) :=
    le_trans (by exact_mod_cast hL1) hfl
  have hup : q * 2 ^ (nlog2 q.den + 1) < (2:ℚ) ^ (nlog2 m + 1) := by
    have hnat : (m:ℚ) + 1 ≤ (2:ℚ) ^ (nlog2 m + 1) := by
      exact_mod_cast Nat.succ_le_of_lt hL2
    linarith
  have hE : elogQ q = (nlog2 m : ℤ) + 1 - ((nlog2 q.den : ℤ) + 1) := by
    unfold elogQ
    rw [hm]
  have h2k : (0:ℚ) < 2 ^ ((nlog2 q.den : ℤ) + 1) := zpow_pos (by norm_num) _
  have hkcast : (2:ℚ) ^ ((nlog2 q.den : ℤ) + 1) = 2 ^ (nlog2 q.den + 1) := by
    rw [show (nlog2 q.den : ℤ) + 1 = ((nlog2 q.den + 1 : ℕ) : ℤ) from by push_cast; ring]
    rw [zpow_natCast]
  constructor
  · rw [show elogQ q - 1 = (nlog2 m : ℤ) - ((nlog2 q.den : ℤ) + 1) from by omega]
    rw [zpow_sub₀ (two_ne_zero : (2:ℚ) ≠ 0)]
    rw [div_le_iff h2k, hkcast, zpow_natCast]
    exact hlow
  · rw [hE]
    rw [show (nlog2 m : ℤ) + 1 - ((nlog2 q.den : ℤ) + 1)
        = ((nlog2 m + 1 : ℕ) : ℤ) - ((nlog2 q.den : ℤ) + 1) from by push_cast; ring]
    rw [zpow_sub₀ (two_ne_zero : (2:ℚ) ≠ 0)]
    rw [lt_div_iff h2k, hkcast, zpow_natCast]
    exact hup

/-! ## Nearest-double error bound and exactness on small integers -/

theorem posND_err (q : ℚ) (he : -1021 ≤ elogQ q) :
    |posND q - q| ≤ 2 ^ (elogQ q - 54) := by
  have hmx : max (elogQ q - 53) (-1074) = elogQ q - 53 := max_eq_left (by omega)
  unfold posND
  rw [hmx]
  have h2s : (0:ℚ) < 2 ^ (elogQ q - 53) := zpow_pos (by norm_num) _
  have hqid : q * 2 ^ (-(elogQ q - 53)) * 2 ^ (elogQ q - 53) = q := by
    rw [mul_assoc, ← zpow_add₀ (two_ne_zero : (2:ℚ) ≠ 0)]
    rw [show -(elogQ q - 53) + (elogQ q - 53) = 0 from by ring, zpow_zero, mul_one]
  have hsplit : (rne (q * 2 ^ (-(elogQ q - 53))) : ℚ) * 2 ^ (elogQ q - 53) - q
      = ((rne (q * 2 ^ (-(elogQ q - 53))) : ℚ) - q * 2 ^ (-(elogQ q - 53)))
        * 2 ^ (elogQ q - 53) := by
    rw [sub_mul, hqid]
  rw [hsplit, abs_mul, abs_of_pos h2s]
  have hb := mul_le_mul_of_nonneg_right (rne_err (q * 2 ^ (-(elogQ q - 53)))) (le_of_lt h2s)
  have heq : (1/2 : ℚ) * 2 ^ (elogQ q - 53) = 2 ^ (elogQ q - 54) := by
    rw [show elogQ q - 54 = -1 + (elogQ q - 53) from by ring]
    rw [zpow_add₀ (two_ne_zero : (2:ℚ) ≠ 0), zpow_neg_one]
    norm_num
  linarith

theorem posND_natCast (n : ℕ) (h1 : 1 ≤ n) (h53 : (n : ℚ) < 2 ^ (53 : ℤ)) :
    posND (n : ℚ) = n := by
  have hq : (0:ℚ) < n := by exact_mod_cast h1
  obtain ⟨hb1, hb2⟩ := elogQ_bracket _ hq
  have hle : elogQ (n : ℚ) ≤ 53 := by
    have hlt : (2:ℚ) ^ (elogQ (n:ℚ) - 1) < 2 ^ (53 : ℤ) := lt_of_le_of_lt hb1 h53
    have := (zpow_lt_zpow_iff_right₀ (by norm_num : (1:ℚ) < 2)).mp hlt
    omega
  have hge : 1 ≤ elogQ (n : ℚ) := by
    have h1q : (2:ℚ) ^ (0 : ℤ) ≤ (n : ℚ) := by
      rw [zpow_zero]
      exact_mod_cast h1
    have hlt : (2:ℚ) ^ (0:ℤ) < 2 ^ elogQ (n : ℚ) := lt_of_le_of_lt h1q hb2
    have := (zpow_lt_zpow_iff_right₀ (by norm_num : (1:ℚ) < 2)).mp hlt
    omega
  unfold posND
  rw [max_eq_left (by omega)]
  have hxe : (n : ℚ) * 2 ^ (-(elogQ (n:ℚ) - 53))
      = ((n * 2 ^ (53 - elogQ (n:ℚ)).toNat : ℕ) : ℚ) := by
    push_cast
    rw [← zpow_natCast (2:ℚ) ((53 - elogQ (n:ℚ)).toNat)]
    rw [Int.toNat_of_nonneg (by omega : (0:ℤ) ≤ 53 - elogQ (n:ℚ))]
    rw [show -(elogQ (n:ℚ) - 53) = 53 - elogQ (n:ℚ) from by ring]
  rw [hxe, rne_natCast]
  push_cast
  rw [← zpow_natCast (2:ℚ) ((53 - elogQ (n:ℚ)).toNat)]
  rw [Int.toNat_of_nonneg (by omega : (0:ℤ) ≤ 53 - elogQ (n:ℚ))]
  rw [mul_assoc, ← zpow_add₀ (two_ne_zero : (2:ℚ) ≠ 0)]
  rw [show 53 - elogQ (n:ℚ) + (elogQ (n:ℚ) - 53) = 0 from by ring, zpow_zero, mul_one]

theorem nearestDoubleQ_natCast (n : ℕ) (h53 : (n : ℚ) < 2 ^ (53 : ℤ)) :
    nearestDoubleQ (n : ℚ) = n := by
  rcases Nat.eq_zero_or_pos n with rfl | h1
  · simp [nearestDoubleQ]
  · have hpos : (0:ℚ) < n := by exact_mod_cast h1
    unfold nearestDoubleQ
    rw [if_neg (ne_of_gt hpos), if_neg (not_lt.mpr (le_of_lt hpos))]
    exact posND_natCast n h1 h53

theorem twoPow1024_eq : (twoPow1024 : ℚ) = (2:ℚ) ^ (1024 : ℤ) := by
  show (((2 ^ 32) ^ 32 : ℕ) : ℚ) = (2:ℚ) ^ (1024 : ℤ)
  rw [show (1024:ℤ) = ((1024:ℕ) : ℤ) from rfl, zpow_natCast]
  rw [Nat.cast_pow, Nat.cast_pow, Nat.cast_ofNat, ← pow_mul]

theorem pyIntToFloat_natCast (n : ℕ) (h1 : 1 ≤ n) (h53 : (n : ℚ) < 2 ^ (53 : ℤ)) :
    pyIntToFloat (n : ℤ) = .ok (n : ℚ) := by
  have hpos : (0:ℚ) < (n:ℚ) := by exact_mod_cast h1
  unfold pyIntToFloat
  rw [Int.cast_natCast, nearestDoubleQ_natCast n h53]
  have hovf : ¬((twoPow1024 : ℚ) ≤ |(n:ℚ)|) := by
    rw [abs_of_pos hpos, twoPow1024_eq]
    intro hcon
    have hchain : (2:ℚ) ^ (53:ℤ) ≤ (2:ℚ) ^ (1024:ℤ) := two_zpow_le (by omega)
    linarith
  rw [if_neg hovf]

/-! ## Reduction lemmas for format_price -/

theorem format_priceNum_int (n : ℤ) (c : Str) :
    format_priceNum (.int n) c =
      (match pyIntToFloat n with
       | .error u => .error u
       | .ok d => .ok (some (c ++ fmt2f (pyDivFloat100 d)))) := rfl

theorem format_price_int_ok (n : ℤ) (d : ℚ) (c : Str) (h : pyIntToFloat n = .ok d) :
    format_price (.int n) c = some (c ++ fmt2f (pyDivFloat100 d)) := by
  show (match format_priceTry (.int n) c with
        | .ok o => o
        | .error _ => Option.none) = some (c ++ fmt2f (pyDivFloat100 d))
  rw [show format_priceTry (.int n) c = format_priceNum (.int n) c from rfl,
    format_priceNum_int, h]

theorem format_price_int_err (n : ℤ) (c : Str) (h : pyIntToFloat n = .error ()) :
    format_price (.int n) c = Option.none := by
  show (match format_priceTry (.int n) c with
        | .ok o => o
        | .error _ => Option.none) = Option.none
  rw [show format_priceTry (.int n) c = format_priceNum (.int n) c from rfl,
    format_priceNum_int, h]

theorem format_price_str_of_check (s c : Str) (h : pyNumeralCheck s = true) :
    format_price (.str s) c =
      (match format_priceNum (numConvert s) c with
       | .ok o => o
       | .error _ => Option.none) := by
  show (match format_priceTry (.str s) c with
        | .ok o => o
        | .error _ => Option.none) = _
  rw [show format_priceTry (.str s) c
      = (if pyNumeralCheck s = true then format_priceNum (numConvert s) c
         else .ok Option.none) from rfl, if_pos h]

theorem format_price_notStr_catch (v : PyVal) (c : Str)
    (h1 : v ≠ .none) (h2 : ∀ s, v ≠ .str s) :
    format_price v c =
      (match format_priceNum v c with
       | .ok o => o
       | .error _ => Option.none) := by
  cases v with
  | none => exact absurd rfl h1
  | str s => exact absurd rfl (h2 s)
  | int n => rfl
  | float f => rfl
  | dict => rfl
  | list => rfl
  | obj => rfl

/-! ## C3 : integer cents rendering -/

/-- C3 (amended): for every `n` below `100 * 2^46` cents the price
normalizer renders the integer `n` as the currency symbol followed by the
exact `n/100` with thousands separators and two decimal digits.  Above that
bound the binary64 intermediate of `n / 100.0` can fall more than half a
cent away, and for huge `n` the `int -> float` conversion overflows
(see `c3_counterexample`). -/
theorem c3_amended_int_render (c : Str) (n : ℕ) (h : n < 100 * 2 ^ 46) :
    format_price (.int (n : ℤ)) c = some (specPriceInt c n) := by
  rcases Nat.eq_zero_or_pos n with rfl | h1
  · have h0 : pyIntToFloat ((0:ℕ) : ℤ) = .ok 0 := by with_unfolding_all rfl
    rw [format_price_int_ok _ 0 c h0]
    have hfz : fmt2f (pyDivFloat100 0) = renderCents 0 := by with_unfolding_all decide
    rw [hfz]
    rfl
  · have h53 : (n : ℚ) < 2 ^ (53 : ℤ) := by
      have hn : (n:ℚ) < ((100 * 2 ^ 46 : ℕ) : ℚ) := by exact_mod_cast h
      have hb : ((100 * 2 ^ 46 : ℕ) : ℚ) < 2 ^ (53:ℤ) := by
        push_cast
        rw [show (53:ℤ) = ((53:ℕ) : ℤ) from rfl, zpow_natCast]
        norm_num
      linarith
    have hIF := pyIntToFloat_natCast n h1 h53
    have hq2pos : (0:ℚ) < (n:ℚ) / 100 := by
      have hp : (0:ℚ) < (n:ℚ) := by exact_mod_cast h1
      exact div_pos hp (by norm_num)
    have hq2lo : (2:ℚ) ^ (-7 : ℤ) ≤ (n:ℚ) / 100 := by
      have hn1 : (1:ℚ) ≤ (n:ℚ) := by exact_mod_cast h1
      have h7 : (2:ℚ) ^ (-7:ℤ) = 1/128 := by norm_num
      rw [h7, div_le_div_iff (by norm_num) (by norm_num)]
      linarith
    have hq2hi : (n:ℚ) / 100 < 2 ^ (46 : ℤ) := by
      rw [div_lt_iff (by norm_num : (0:ℚ) < 100)]
      have hn : (n:ℚ) < ((100 * 2 ^ 46 : ℕ) : ℚ) := by exact_mod_cast h
      have hb : ((100 * 2 ^ 46 : ℕ) : ℚ) = 2 ^ (46:ℤ) * 100 := by
        push_cast
        rw [show (46:ℤ) = ((46:ℕ) : ℤ) from rfl, zpow_natCast]
        ring
      linarith
    have he_le : elogQ ((n:ℚ)/100) ≤ 46 := by
      obtain ⟨hb1, _⟩ := elogQ_bracket _ hq2pos
      have := (zpow_lt_zpow_iff_right₀ (by norm_num : (1:ℚ) < 2)).mp
        (lt_of_le_of_lt hb1 hq2hi)
      omega
    have he_ge : -6 ≤ elogQ ((n:ℚ)/100) := by
      obtain ⟨_, hb2⟩ := elogQ_bracket _ hq2pos
      have := (zpow_lt_zpow_iff_right₀ (by norm_num : (1:ℚ) < 2)).mp
        (lt_of_le_of_lt hq2lo hb2)
      omega
    have herr : |posND ((n:ℚ)/100) - (n:ℚ)/100| ≤ 2 ^ (-8 : ℤ) := by
      have he := posND_err ((n:ℚ)/100) (by omega)
      have hb : (2:ℚ) ^ (elogQ ((n:ℚ)/100) - 54) ≤ 2 ^ (-8:ℤ) := two_zpow_le (by omega)
      linarith
    have hdiv : pyDivFloat100 (n : ℚ) = posND ((n:ℚ)/100) := by
      unfold pyDivFloat100 nearestDoubleQ
      rw [if_neg (ne_of_gt hq2pos), if_neg (not_lt.mpr (le_of_lt hq2pos))]
    have hd2pos : (0:ℚ) ≤ posND ((n:ℚ)/100) := by
      have habs := abs_le.mp herr
      have h8 : (2:ℚ) ^ (-8:ℤ) = 1/256 := by norm_num
      have h7 : (2:ℚ) ^ (-7:ℤ) = 1/128 := by norm_num
      rw [h8] at habs
      rw [h7] at hq2lo
      linarith [habs.1]
    have hcents : rne (posND ((n:ℚ)/100) * 100) = (n : ℤ) := by
      apply rne_eq_of_close
      have hid : posND ((n:ℚ)/100) * 100 - ((n:ℤ) : ℚ)
          = (posND ((n:ℚ)/100) - (n:ℚ)/100) * 100 := by
        push_cast
        ring
      rw [hid, abs_mul, show |(100:ℚ)| = 100 from by norm_num]
      have hmul : |posND ((n:ℚ)/100) - (n:ℚ)/100| * 100 ≤ 2 ^ (-8:ℤ) * 100 :=
        mul_le_mul_of_nonneg_right herr (by norm_num)
      have hfin : (2:ℚ) ^ (-8:ℤ) * 100 < 1/2 := by norm_num
      linarith
    have hfmt : fmt2f (posND ((n:ℚ)/100)) = renderCents n := by
      unfold fmt2f renderCents
      rw [if_neg (not_lt.mpr hd2pos), abs_of_nonneg hd2pos, hcents]
      rw [Int.toNat_natCast, List.nil_append]
    rw [format_price_int_ok _ _ c hIF, hdiv, hfmt]
    rfl

theorem c3_counterexample :
    format_price (.int 7036874417766401) (strL "$") ≠
      some (specPriceInt (strL "$") 7036874417766401) := by
  with_unfolding_all decide

theorem c3_witness :
    (3999 : ℕ) < 100 * 2 ^ 46 ∧
    format_price (.int ((3999 : ℕ) : ℤ)) (strL "$") =
      some (specPriceInt (strL "$") 3999) ∧
    specPriceInt (strL "$") 3999 = strL "$39.99" := by
  refine ⟨by norm_num, c3_amended_int_render (strL "$") 3999 (by norm_num), ?_⟩
  with_unfolding_all decide

/-! ## C4 : numeric strings parse like their numeric counterparts -/

/-- C4: when the stripped string passes the numeric test (digits with at
most one dot removed), the result equals the result on its converted
numeric value — the integer `int(s)` when `s` has no dot and the float
`float(s)` otherwise; any other string yields an absent result. -/
theorem c4_string_numeric (s c : Str) :
    (pyNumeralCheck s = true →
       format_price (.str s) c = format_price (numConvert s) c ∧
       (s.contains '.' = false → numConvert s = .int (pyIntOfStr s)) ∧
       (s.contains '.' = true → numConvert s = .float (pyFloatOfStr s))) ∧
    (pyNumeralCheck s = false → format_price (.str s) c = Option.none) := by
  constructor
  · intro h
    refine ⟨?_, ?_, ?_⟩
    · by_cases hd : s.contains '.' = true
      · have hnc : numConvert s = .float (pyFloatOfStr s) := by
          unfold numConvert
          rw [if_pos hd]
        rw [format_price_str_of_check s c h, hnc,
          format_price_notStr_catch (.float (pyFloatOfStr s)) c (by simp) (fun s2 => by simp)]
      · have hnc : numConvert s = .int (pyIntOfStr s) := by
          unfold numConvert
          rw [if_neg hd]
        rw [format_price_str_of_check s c h, hnc,
          format_price_notStr_catch (.int (pyIntOfStr s)) c (by simp) (fun s2 => by simp)]
    · intro hd
      unfold numConvert
      rw [if_neg (by rw [hd]; exact Bool.false_ne_true)]
    · intro hd
      unfold numConvert
      rw [if_pos hd]
  · intro h
    show (match format_priceTry (.str s) c with
          | .ok o => o
          | .error _ => Option.none) = Option.none
    rw [show format_priceTry (.str s) c
        = (if pyNumeralCheck s = true then format_priceNum (numConvert s) c
           else .ok Option.none) from rfl]
    rw [if_neg (by rw [h]; exact Bool.false_ne_true)]

theorem c4_witness :
    pyNumeralCheck (strL "5499") = true ∧
    format_price (.str (strL "5499")) (strL "$") =
      format_price (numConvert (strL "5499")) (strL "$") ∧
    format_price (.str (strL "5499")) (strL "$") = some (strL "$54.99") := by
  refine ⟨by decide, ((c4_string_numeric (strL "5499") (strL "$")).1 (by decide)).1, ?_⟩
  with_unfolding_all decide
